import Mathlib

/-!
Verification of the coset index translator of the coset-combining FRI module
(file redshift/IOP/FRI/coset_combining_fri/coset_combiner.rs).

The translator is a pure library over machine integers (usize).  We embed
usize values as natural numbers; the only operation whose result depends on
the 64-bit word width is bitwise NOT, embedded as XOR against the all-ones
64-bit word.  The two assertions at the head of the three domain-checked
operations are embedded as guards returning an explicit error value.
-/

/-- Half-open interval of storage indices, mirroring the returned Rust
Range with usize endpoints.  The field stop is the exclusive endpoint. -/
structure NRange where
  start : Nat
  stop : Nat
deriving DecidableEq

/-- The two precondition-violation kinds of the translator: the supplied
index is not below the domain size, or the domain size is not two to the
claimed logarithm. -/
inductive CombinerError where
  | indexOutOfRange
  | domainSizeMismatch
deriving DecidableEq

/-- Bitwise complement on a 64-bit machine word, as the Rust NOT operator
acts on usize: XOR against the all-ones word. -/
def usizeNot (x : Nat) : Nat := (2 ^ 64 - 1) ^^^ x

/-- Modelled from the spec: the external bit-reversal primitive
bitreverse(value, width) imported from the cooley_tukey_ntt module, whose
source file is not part of the snapshot.  Per the consumed-interface
contract it returns value with its lowest width bits written in reverse
order (bit 0 swaps with bit width-1, and so on); bits of value at or above
position width are ignored. -/
def bitreverse (n : Nat) : Nat → Nat
  | 0 => 0
  | w + 1 => n % 2 * 2 ^ w + bitreverse (n / 2) w

/-- Operation natural -> coset range.  The two asserts become the two
guards; the body builds the clearing mask, applies it, bit-reverses over
the full width and returns the half-open coset range. -/
def get_coset_idx_for_natural_index
    (natural_index domain_size log_domain_size collapsing_factor : Nat) :
    Except CombinerError NRange :=
  if natural_index < domain_size then
    if (1 <<< log_domain_size) = domain_size then
      let endpoint_mask := (1 <<< collapsing_factor) - 1
      let mask := usizeNot (endpoint_mask <<< (log_domain_size - collapsing_factor))
      let start_idx := bitreverse (natural_index &&& mask) log_domain_size
      let coset_size := 1 <<< collapsing_factor
      .ok { start := start_idx, stop := start_idx + coset_size }
    else .error .domainSizeMismatch
  else .error .indexOutOfRange

/-- Operation natural -> coset range plus offset (extended form).  Same as
the previous operation, and additionally the low collapsing_factor bits of
the fully bit-reversed natural index are returned as the in-coset shift. -/
def get_coset_idx_for_natural_index_extended
    (natural_index domain_size log_domain_size collapsing_factor : Nat) :
    Except CombinerError (NRange × Nat) :=
  if natural_index < domain_size then
    if (1 <<< log_domain_size) = domain_size then
      let endpoint_mask := (1 <<< collapsing_factor) - 1
      let mask := usizeNot (endpoint_mask <<< (log_domain_size - collapsing_factor))
      let start_idx := bitreverse (natural_index &&& mask) log_domain_size
      let coset_size := 1 <<< collapsing_factor
      let coset_idx_range : NRange := { start := start_idx, stop := start_idx + coset_size }
      let shift := bitreverse natural_index log_domain_size &&& endpoint_mask
      .ok (coset_idx_range, shift)
    else .error .domainSizeMismatch
  else .error .indexOutOfRange

/-- Operation coset index -> natural index: full-width bit reversal behind
the same two guards.  The collapsing-factor argument is accepted but
unused, as in the source. -/
def get_natural_idx_for_coset_index
    (coset_index domain_size log_domain_size _collapsing_factor : Nat) :
    Except CombinerError Nat :=
  if coset_index < domain_size then
    if (1 <<< log_domain_size) = domain_size then
      .ok (bitreverse coset_index log_domain_size)
    else .error .domainSizeMismatch
  else .error .indexOutOfRange

/-- Operation next-layer coset range plus offset.  The source performs no
precondition checks here and takes no domain size: shift the previous
physical index right by the collapsing factor and split the result into an
aligned start and a low-bits offset. -/
def get_next_layer_coset_idx_extended
    (coset_index_start collapsing_factor : Nat) : NRange × Nat :=
  let coset_size := 1 <<< collapsing_factor
  let temp := coset_index_start >>> collapsing_factor
  let endpoint_mask := (1 <<< collapsing_factor) - 1
  let new_coset_start := temp &&& usizeNot endpoint_mask
  let offset := temp &&& endpoint_mask
  ({ start := new_coset_start, stop := new_coset_start + coset_size }, offset)

/-- The next-layer decomposition exactly as the specification words it
(reference definition for the refinement claim): drop the low bits with a
right shift, then split by the endpoint mask into aligned start and
offset. -/
def next_layer_spec_decomposition
    (coset_index_start collapsing_factor : Nat) : NRange × Nat :=
  let temp := coset_index_start >>> collapsing_factor
  let endpoint_mask := 2 ^ collapsing_factor - 1
  let new_start := temp &&& usizeNot endpoint_mask
  let new_offset := temp &&& endpoint_mask
  ({ start := new_start, stop := new_start + 2 ^ collapsing_factor }, new_offset)

/-- Chain the next-layer operation over the rounds with collapsing factors
c followed by cs, feeding the resolved physical index (range start plus
offset) of each round into the next, and return the last round's range and
offset. -/
def chain_next_layer (x c : Nat) : List Nat → NRange × Nat
  | [] => get_next_layer_coset_idx_extended x c
  | c2 :: cs =>
    let p := get_next_layer_coset_idx_extended x c
    chain_next_layer (p.1.start + p.2) c2 cs

theorem bitreverse_succ (n w : Nat) :
    bitreverse n (w + 1) = n % 2 * 2 ^ w + bitreverse (n / 2) w := rfl

theorem bitreverse_zero_left : ∀ w : Nat, bitreverse 0 w = 0 := by
  intro w
  induction w with
  | zero => rfl
  | succ w ih => simp [bitreverse_succ, ih]

theorem bitreverse_lt : ∀ (w n : Nat), bitreverse n w < 2 ^ w := by
  intro w
  induction w with
  | zero =>
    intro n
    simp [bitreverse]
  | succ w ih =>
    intro n
    have h1 := ih (n / 2)
    have h2 : n % 2 = 0 ∨ n % 2 = 1 := Nat.mod_two_eq_zero_or_one n
    have hp : 2 ^ (w + 1) = 2 ^ w * 2 := pow_succ 2 w
    rw [bitreverse_succ]
    rcases h2 with h2 | h2 <;> (rw [h2]; omega)

theorem bitreverse_split : ∀ (a b lo hi : Nat), lo < 2 ^ a →
    bitreverse (lo + 2 ^ a * hi) (a + b) = 2 ^ b * bitreverse lo a + bitreverse hi b := by
  intro a
  induction a with
  | zero =>
    intro b lo hi hlo
    have hlo0 : lo = 0 := by omega
    subst hlo0
    simp [bitreverse_zero_left]
  | succ a ih =>
    intro b lo hi hlo
    have hm : 2 ^ (a + 1) * hi = 2 * (2 ^ a * hi) := by ring
    have hp : 2 ^ (a + 1) = 2 * 2 ^ a := by ring
    have h1 : (lo + 2 ^ (a + 1) * hi) % 2 = lo % 2 := by omega
    have h2 : (lo + 2 ^ (a + 1) * hi) / 2 = lo / 2 + 2 ^ a * hi := by omega
    have hlo2 : lo / 2 < 2 ^ a := by omega
    have e : a + 1 + b = (a + b) + 1 := by omega
    rw [e, bitreverse_succ, h1, h2, ih b (lo / 2) hi hlo2, bitreverse_succ, pow_add]
    ring

theorem bitreverse_bitreverse : ∀ (w n : Nat), n < 2 ^ w →
    bitreverse (bitreverse n w) w = n := by
  intro w
  induction w with
  | zero =>
    intro n h
    have : n = 0 := by omega
    subst this
    rfl
  | succ w ih =>
    intro n h
    have hr : bitreverse (n / 2) w < 2 ^ w := bitreverse_lt w (n / 2)
    have hp : 2 ^ (w + 1) = 2 * 2 ^ w := by ring
    have hn2 : n / 2 < 2 ^ w := by omega
    have e1 : n % 2 * 2 ^ w + bitreverse (n / 2) w
        = bitreverse (n / 2) w + 2 ^ w * (n % 2) := by ring
    have e2 : bitreverse (n % 2) 1 = n % 2 := by
      have : n % 2 < 2 := Nat.mod_lt n (by omega)
      interval_cases h : n % 2 <;> rfl
    rw [bitreverse_succ n w, e1, bitreverse_split w 1 _ _ hr, ih (n / 2) hn2, e2, pow_one]
    omega

theorem and_low_mask (x k : Nat) : x &&& ((1 <<< k) - 1) = x % 2 ^ k := by
  rw [Nat.one_shiftLeft]
  exact Nat.and_pow_two_sub_one_eq_mod x k

theorem and_not_low_mask (x k : Nat) (hx : x < 2 ^ 64) (hk : k ≤ 64) :
    x &&& usizeNot ((1 <<< k) - 1) = x / 2 ^ k * 2 ^ k := by
  have hrw : x / 2 ^ k * 2 ^ k = (x >>> k) <<< k := by
    rw [Nat.shiftLeft_eq, Nat.shiftRight_eq_div_pow]
  rw [hrw, usizeNot, Nat.one_shiftLeft]
  apply Nat.eq_of_testBit_eq
  intro i
  simp only [Nat.testBit_and, Nat.testBit_xor, Nat.testBit_two_pow_sub_one,
    Nat.testBit_shiftLeft, Nat.testBit_shiftRight]
  rcases Nat.lt_or_ge i k with hik | hik
  · have h64 : i < 64 := by omega
    have hik2 : ¬ i ≥ k := by omega
    simp [hik, h64, hik2]
  · rcases Nat.lt_or_ge i 64 with h64 | h64
    · have hik2 : ¬ i < k := by omega
      have hki : k + (i - k) = i := by omega
      simp [hik, hik2, h64, hki]
    · have hbx : x.testBit i = false :=
        Nat.testBit_lt_two_pow
          (lt_of_lt_of_le hx (Nat.pow_le_pow_right (by norm_num) h64))
      have hbx2 : x.testBit (k + (i - k)) = false := by
        have : k + (i - k) = i := by omega
        rw [this, hbx]
      simp [hbx, hbx2]

theorem and_shifted_mask_eq_mod (n log cf : Nat)
    (hn : n < 2 ^ log) (hlog : log ≤ 64) (hcf : cf ≤ log) :
    n &&& usizeNot (((1 <<< cf) - 1) <<< (log - cf)) = n % 2 ^ (log - cf) := by
  rw [usizeNot, Nat.one_shiftLeft]
  apply Nat.eq_of_testBit_eq
  intro i
  simp only [Nat.testBit_and, Nat.testBit_xor, Nat.testBit_shiftLeft,
    Nat.testBit_two_pow_sub_one, Nat.testBit_mod_two_pow]
  rcases Nat.lt_or_ge i (log - cf) with hi | hi
  · have h64 : i < 64 := by omega
    have h2 : ¬ i ≥ log - cf := by omega
    simp [hi, h64, h2]
  · rcases Nat.lt_or_ge i log with hil | hil
    · have h64 : i < 64 := by omega
      have h2 : ¬ i < log - cf := by omega
      have h3 : i - (log - cf) < cf := by omega
      simp [hi, h2, h3, h64]
    · have hbn : n.testBit i = false :=
        Nat.testBit_lt_two_pow
          (lt_of_lt_of_le hn (Nat.pow_le_pow_right (by norm_num) hil))
      simp [hbn]

theorem forward_ext_eq (n d log cf : Nat) (hd : 2 ^ log = d) (hlog : log ≤ 64)
    (hcf : cf ≤ log) (hn : n < d) :
    get_coset_idx_for_natural_index_extended n d log cf =
      .ok ({ start := 2 ^ cf * bitreverse (n % 2 ^ (log - cf)) (log - cf),
             stop := 2 ^ cf * bitreverse (n % 2 ^ (log - cf)) (log - cf) + 2 ^ cf },
           bitreverse (n / 2 ^ (log - cf)) cf) := by
  have hg : (1 <<< log) = d := by rw [Nat.one_shiftLeft]; exact hd
  have hnl : n < 2 ^ log := by rw [hd]; exact hn
  have hs : log - cf + cf = log := by omega
  have hmask := and_shifted_mask_eq_mod n log cf hnl hlog hcf
  have hmod : n % 2 ^ (log - cf) < 2 ^ (log - cf) := Nat.mod_lt _ (Nat.two_pow_pos _)
  have hstart : bitreverse (n % 2 ^ (log - cf)) log
      = 2 ^ cf * bitreverse (n % 2 ^ (log - cf)) (log - cf) := by
    have h0 := bitreverse_split (log - cf) cf (n % 2 ^ (log - cf)) 0 hmod
    rw [Nat.mul_zero, Nat.add_zero, hs, bitreverse_zero_left, Nat.add_zero] at h0
    exact h0
  have hdecomp : bitreverse n log
      = 2 ^ cf * bitreverse (n % 2 ^ (log - cf)) (log - cf)
        + bitreverse (n / 2 ^ (log - cf)) cf := by
    have h0 := bitreverse_split (log - cf) cf (n % 2 ^ (log - cf)) (n / 2 ^ (log - cf)) hmod
    rw [Nat.mod_add_div, hs] at h0
    exact h0
  have hshift : bitreverse n log &&& ((1 <<< cf) - 1) = bitreverse (n / 2 ^ (log - cf)) cf := by
    rw [and_low_mask, hdecomp, Nat.mul_add_mod, Nat.mod_eq_of_lt (bitreverse_lt cf _)]
  simp only [get_coset_idx_for_natural_index_extended]
  rw [if_pos hn, if_pos hg, hmask, hstart, hshift, Nat.one_shiftLeft]

theorem forward_plain_eq (n d log cf : Nat) (hd : 2 ^ log = d) (hlog : log ≤ 64)
    (hcf : cf ≤ log) (hn : n < d) :
    get_coset_idx_for_natural_index n d log cf =
      .ok { start := 2 ^ cf * bitreverse (n % 2 ^ (log - cf)) (log - cf),
            stop := 2 ^ cf * bitreverse (n % 2 ^ (log - cf)) (log - cf) + 2 ^ cf } := by
  have hg : (1 <<< log) = d := by rw [Nat.one_shiftLeft]; exact hd
  have hnl : n < 2 ^ log := by rw [hd]; exact hn
  have hs : log - cf + cf = log := by omega
  have hmask := and_shifted_mask_eq_mod n log cf hnl hlog hcf
  have hmod : n % 2 ^ (log - cf) < 2 ^ (log - cf) := Nat.mod_lt _ (Nat.two_pow_pos _)
  have hstart : bitreverse (n % 2 ^ (log - cf)) log
      = 2 ^ cf * bitreverse (n % 2 ^ (log - cf)) (log - cf) := by
    have h0 := bitreverse_split (log - cf) cf (n % 2 ^ (log - cf)) 0 hmod
    rw [Nat.mul_zero, Nat.add_zero, hs, bitreverse_zero_left, Nat.add_zero] at h0
    exact h0
  simp only [get_coset_idx_for_natural_index]
  rw [if_pos hn, if_pos hg, hmask, hstart, Nat.one_shiftLeft]

theorem inverse_eq (c d log cf : Nat) (hd : 2 ^ log = d) (hc : c < d) :
    get_natural_idx_for_coset_index c d log cf = .ok (bitreverse c log) := by
  have hg : (1 <<< log) = d := by rw [Nat.one_shiftLeft]; exact hd
  simp only [get_natural_idx_for_coset_index]
  rw [if_pos hc, if_pos hg]

theorem next_layer_eq (x cf : Nat) (hx : x < 2 ^ 64) (hcf : cf ≤ 64) :
    get_next_layer_coset_idx_extended x cf =
      ({ start := (x >>> cf) / 2 ^ cf * 2 ^ cf,
         stop := (x >>> cf) / 2 ^ cf * 2 ^ cf + 2 ^ cf }, (x >>> cf) % 2 ^ cf) := by
  have ht : x >>> cf < 2 ^ 64 := by
    rw [Nat.shiftRight_eq_div_pow]
    exact lt_of_le_of_lt (Nat.div_le_self x (2 ^ cf)) hx
  simp only [get_next_layer_coset_idx_extended]
  rw [and_low_mask, and_not_low_mask (x >>> cf) cf ht hcf, Nat.one_shiftLeft]

theorem bitreverse_decomp (n log cf : Nat) (hcf : cf ≤ log) :
    bitreverse n log
      = 2 ^ cf * bitreverse (n % 2 ^ (log - cf)) (log - cf)
        + bitreverse (n / 2 ^ (log - cf)) cf := by
  have hs : log - cf + cf = log := by omega
  have h0 := bitreverse_split (log - cf) cf (n % 2 ^ (log - cf)) (n / 2 ^ (log - cf))
    (Nat.mod_lt _ (Nat.two_pow_pos _))
  rw [Nat.mod_add_div, hs] at h0
  exact h0

theorem forward_ext_sum (n d log cf : Nat) (hd : 2 ^ log = d) (hlog : log ≤ 64)
    (hcf : cf ≤ log) (hn : n < d) :
    ∃ r off, get_coset_idx_for_natural_index_extended n d log cf = .ok (r, off) ∧
      r.start + off = bitreverse n log := by
  refine ⟨_, _, forward_ext_eq n d log cf hd hlog hcf hn, ?_⟩
  show 2 ^ cf * bitreverse (n % 2 ^ (log - cf)) (log - cf)
      + bitreverse (n / 2 ^ (log - cf)) cf = bitreverse n log
  exact (bitreverse_decomp n log cf hcf).symm

theorem next_layer_sum (x c : Nat) (hx : x < 2 ^ 64) (hc : c ≤ 64) :
    (get_next_layer_coset_idx_extended x c).1.start + (get_next_layer_coset_idx_extended x c).2
      = x >>> c := by
  rw [next_layer_eq x c hx hc]
  show (x >>> c) / 2 ^ c * 2 ^ c + (x >>> c) % 2 ^ c = x >>> c
  calc (x >>> c) / 2 ^ c * 2 ^ c + (x >>> c) % 2 ^ c
      = 2 ^ c * ((x >>> c) / 2 ^ c) + (x >>> c) % 2 ^ c := by ring_nf
    _ = x >>> c := Nat.div_add_mod _ _

/-- C1: for every domain_size equal to two to the log_domain_size, every
collapsing_factor at most log_domain_size and every natural_index below the
domain size, the extended forward operation succeeds with a range and
offset whose recombination range.start + offset is mapped back to exactly
natural_index by the inverse operation.  (log_domain_size is bounded by the
64-bit usize width.) -/
theorem roundtrip_forward_then_inverse
    (natural_index domain_size log_domain_size collapsing_factor : Nat)
    (hd : 2 ^ log_domain_size = domain_size) (hlog : log_domain_size ≤ 64)
    (hcf : collapsing_factor ≤ log_domain_size)
    (hn : natural_index < domain_size) :
    ∃ r off,
      get_coset_idx_for_natural_index_extended natural_index domain_size
        log_domain_size collapsing_factor = .ok (r, off) ∧
      get_natural_idx_for_coset_index (r.start + off) domain_size
        log_domain_size collapsing_factor = .ok natural_index := by
  obtain ⟨r, off, hfwd, hsum⟩ :=
    forward_ext_sum natural_index domain_size log_domain_size collapsing_factor hd hlog hcf hn
  have hnl : natural_index < 2 ^ log_domain_size := by rw [hd]; exact hn
  have hb : bitreverse natural_index log_domain_size < domain_size := by
    rw [← hd]; exact bitreverse_lt _ _
  refine ⟨r, off, hfwd, ?_⟩
  rw [hsum, inverse_eq _ _ _ _ hd hb, bitreverse_bitreverse _ _ hnl]

/-- C1 witness: the concrete scenario of the source test, domain size
65536, log 16, collapsing factor 4, natural index 837. -/
theorem roundtrip_forward_then_inverse_witness :
    2 ^ 16 = 65536 ∧ 16 ≤ 64 ∧ 4 ≤ 16 ∧ 837 < 65536 ∧
    (∃ r off,
      get_coset_idx_for_natural_index_extended 837 65536 16 4 = .ok (r, off) ∧
      get_natural_idx_for_coset_index (r.start + off) 65536 16 4 = .ok 837) :=
  ⟨by norm_num, by norm_num, by norm_num, by norm_num,
    roundtrip_forward_then_inverse 837 65536 16 4
      (by norm_num) (by norm_num) (by norm_num) (by norm_num)⟩

/-- C2: for every storage index below the domain size, mapping it to its
natural index with the inverse operation and feeding that natural index to
the extended forward operation yields a range and offset recombining to
exactly the original storage index. -/
theorem roundtrip_inverse_then_forward
    (coset_index domain_size log_domain_size collapsing_factor : Nat)
    (hd : 2 ^ log_domain_size = domain_size) (hlog : log_domain_size ≤ 64)
    (hcf : collapsing_factor ≤ log_domain_size)
    (hc : coset_index < domain_size) :
    ∃ n r off,
      get_natural_idx_for_coset_index coset_index domain_size
        log_domain_size collapsing_factor = .ok n ∧
      get_coset_idx_for_natural_index_extended n domain_size
        log_domain_size collapsing_factor = .ok (r, off) ∧
      r.start + off = coset_index := by
  have hcl : coset_index < 2 ^ log_domain_size := by rw [hd]; exact hc
  have hb : bitreverse coset_index log_domain_size < domain_size := by
    rw [← hd]; exact bitreverse_lt _ _
  obtain ⟨r, off, hfwd, hsum⟩ :=
    forward_ext_sum (bitreverse coset_index log_domain_size) domain_size
      log_domain_size collapsing_factor hd hlog hcf hb
  refine ⟨bitreverse coset_index log_domain_size, r, off,
    inverse_eq _ _ _ _ hd hc, hfwd, ?_⟩
  rw [hsum, bitreverse_bitreverse _ _ hcl]

/-- C2 witness: the second concrete scenario of the source test, storage
index 23 in the same domain. -/
theorem roundtrip_inverse_then_forward_witness :
    2 ^ 16 = 65536 ∧ 16 ≤ 64 ∧ 4 ≤ 16 ∧ 23 < 65536 ∧
    (∃ n r off,
      get_natural_idx_for_coset_index 23 65536 16 4 = .ok n ∧
      get_coset_idx_for_natural_index_extended n 65536 16 4 = .ok (r, off) ∧
      r.start + off = 23) :=
  ⟨by norm_num, by norm_num, by norm_num, by norm_num,
    roundtrip_inverse_then_forward 23 65536 16 4
      (by norm_num) (by norm_num) (by norm_num) (by norm_num)⟩

/-- C3 counterexample: the next-layer operation takes no domain size and
performs no precondition check at all.  With domain size 65536 the storage
index 65536 is out of range, yet the operation completes its computation
and returns a range and offset instead of failing. -/
theorem next_layer_performs_no_check :
    get_next_layer_coset_idx_extended 65536 4 = ({ start := 4096, stop := 4112 }, 0) := by
  decide

/-- C3 (amended): the three operations that receive the domain parameters
check the index precondition at their start and abort immediately with the
index-out-of-range condition, performing no further computation; the
next-layer operation receives no domain size and performs no check. -/
theorem checked_operations_fail_on_out_of_range_index
    (idx domain_size log_domain_size collapsing_factor : Nat)
    (h : ¬ idx < domain_size) :
    get_coset_idx_for_natural_index idx domain_size log_domain_size collapsing_factor
      = .error .indexOutOfRange ∧
    get_coset_idx_for_natural_index_extended idx domain_size log_domain_size collapsing_factor
      = .error .indexOutOfRange ∧
    get_natural_idx_for_coset_index idx domain_size log_domain_size collapsing_factor
      = .error .indexOutOfRange := by
  refine ⟨?_, ?_, ?_⟩ <;>
    simp only [get_coset_idx_for_natural_index, get_coset_idx_for_natural_index_extended,
      get_natural_idx_for_coset_index, if_neg h]

/-- C3 witness: the spec scenario natural_index = domain_size, at domain
size 65536. -/
theorem checked_operations_fail_witness :
    ¬ 65536 < 65536 ∧
    (get_coset_idx_for_natural_index 65536 65536 16 4 = .error .indexOutOfRange ∧
     get_coset_idx_for_natural_index_extended 65536 65536 16 4 = .error .indexOutOfRange ∧
     get_natural_idx_for_coset_index 65536 65536 16 4 = .error .indexOutOfRange) :=
  ⟨by norm_num,
    checked_operations_fail_on_out_of_range_index 65536 65536 16 4 (by norm_num)⟩

/-- C4: for every valid input the ranges returned by the plain forward
operation, the extended forward operation and the next-layer operation all
have length exactly two to the collapsing factor, and their starts are
coset aligned (divisible by the coset size). -/
theorem coset_alignment
    (n domain_size log_domain_size collapsing_factor x : Nat)
    (hd : 2 ^ log_domain_size = domain_size) (hlog : log_domain_size ≤ 64)
    (hcf : collapsing_factor ≤ log_domain_size) (hn : n < domain_size)
    (hx : x < 2 ^ 64) :
    (∃ r, get_coset_idx_for_natural_index n domain_size log_domain_size collapsing_factor
        = .ok r ∧ r.stop - r.start = 2 ^ collapsing_factor
        ∧ r.start % 2 ^ collapsing_factor = 0) ∧
    (∃ r off, get_coset_idx_for_natural_index_extended n domain_size
        log_domain_size collapsing_factor = .ok (r, off)
        ∧ r.stop - r.start = 2 ^ collapsing_factor
        ∧ r.start % 2 ^ collapsing_factor = 0) ∧
    ((get_next_layer_coset_idx_extended x collapsing_factor).1.stop
        - (get_next_layer_coset_idx_extended x collapsing_factor).1.start
        = 2 ^ collapsing_factor ∧
     (get_next_layer_coset_idx_extended x collapsing_factor).1.start
        % 2 ^ collapsing_factor = 0) := by
  have hcf64 : collapsing_factor ≤ 64 := le_trans hcf hlog
  refine ⟨⟨_, forward_plain_eq n domain_size log_domain_size collapsing_factor hd hlog hcf hn,
      ?_, ?_⟩,
    ⟨_, _, forward_ext_eq n domain_size log_domain_size collapsing_factor hd hlog hcf hn,
      ?_, ?_⟩, ?_⟩
  · show 2 ^ collapsing_factor
        * bitreverse (n % 2 ^ (log_domain_size - collapsing_factor))
          (log_domain_size - collapsing_factor)
        + 2 ^ collapsing_factor
        - 2 ^ collapsing_factor
          * bitreverse (n % 2 ^ (log_domain_size - collapsing_factor))
            (log_domain_size - collapsing_factor)
        = 2 ^ collapsing_factor
    exact Nat.add_sub_cancel_left _ _
  · exact Nat.mul_mod_right _ _
  · show 2 ^ collapsing_factor
        * bitreverse (n % 2 ^ (log_domain_size - collapsing_factor))
          (log_domain_size - collapsing_factor)
        + 2 ^ collapsing_factor
        - 2 ^ collapsing_factor
          * bitreverse (n % 2 ^ (log_domain_size - collapsing_factor))
            (log_domain_size - collapsing_factor)
        = 2 ^ collapsing_factor
    exact Nat.add_sub_cancel_left _ _
  · exact Nat.mul_mod_right _ _
  · rw [next_layer_eq x collapsing_factor hx hcf64]
    refine ⟨?_, Nat.mul_mod_left _ _⟩
    show (x >>> collapsing_factor) / 2 ^ collapsing_factor * 2 ^ collapsing_factor
        + 2 ^ collapsing_factor
        - (x >>> collapsing_factor) / 2 ^ collapsing_factor * 2 ^ collapsing_factor
        = 2 ^ collapsing_factor
    exact Nat.add_sub_cancel_left _ _

/-- C4 witness: the concrete source-test scenario plus the next-layer input
100. -/
theorem coset_alignment_witness :
    2 ^ 16 = 65536 ∧ 16 ≤ 64 ∧ 4 ≤ 16 ∧ 837 < 65536 ∧ 100 < 2 ^ 64 ∧
    ((∃ r, get_coset_idx_for_natural_index 837 65536 16 4 = .ok r
        ∧ r.stop - r.start = 2 ^ 4 ∧ r.start % 2 ^ 4 = 0) ∧
     (∃ r off, get_coset_idx_for_natural_index_extended 837 65536 16 4 = .ok (r, off)
        ∧ r.stop - r.start = 2 ^ 4 ∧ r.start % 2 ^ 4 = 0) ∧
     ((get_next_layer_coset_idx_extended 100 4).1.stop
        - (get_next_layer_coset_idx_extended 100 4).1.start = 2 ^ 4 ∧
      (get_next_layer_coset_idx_extended 100 4).1.start % 2 ^ 4 = 0)) :=
  ⟨by norm_num, by norm_num, by norm_num, by norm_num, by norm_num,
    coset_alignment 837 65536 16 4 100
      (by norm_num) (by norm_num) (by norm_num) (by norm_num) (by norm_num)⟩

/-- C5: for every valid input, the offsets returned by the extended forward
operation and by the next-layer operation are below the coset size (being
natural numbers they are non-negative). -/
theorem offset_bound
    (n domain_size log_domain_size collapsing_factor x : Nat)
    (hd : 2 ^ log_domain_size = domain_size) (hlog : log_domain_size ≤ 64)
    (hcf : collapsing_factor ≤ log_domain_size) (hn : n < domain_size)
    (hx : x < 2 ^ 64) :
    (∃ r off, get_coset_idx_for_natural_index_extended n domain_size
        log_domain_size collapsing_factor = .ok (r, off)
        ∧ off < 2 ^ collapsing_factor) ∧
    (get_next_layer_coset_idx_extended x collapsing_factor).2
        < 2 ^ collapsing_factor := by
  have hcf64 : collapsing_factor ≤ 64 := le_trans hcf hlog
  refine ⟨⟨_, _,
    forward_ext_eq n domain_size log_domain_size collapsing_factor hd hlog hcf hn,
    bitreverse_lt collapsing_factor _⟩, ?_⟩
  rw [next_layer_eq x collapsing_factor hx hcf64]
  exact Nat.mod_lt _ (Nat.two_pow_pos _)

/-- C5 witness: the concrete source-test scenario plus the next-layer input
100. -/
theorem offset_bound_witness :
    2 ^ 16 = 65536 ∧ 16 ≤ 64 ∧ 4 ≤ 16 ∧ 837 < 65536 ∧ 100 < 2 ^ 64 ∧
    ((∃ r off, get_coset_idx_for_natural_index_extended 837 65536 16 4 = .ok (r, off)
        ∧ off < 2 ^ 4) ∧
     (get_next_layer_coset_idx_extended 100 4).2 < 2 ^ 4) :=
  ⟨by norm_num, by norm_num, by norm_num, by norm_num, by norm_num,
    offset_bound 837 65536 16 4 100
      (by norm_num) (by norm_num) (by norm_num) (by norm_num) (by norm_num)⟩

/-- C6: chaining the next-layer operation across rounds with collapsing
factors c followed by cs, feeding each round's range.start + offset into
the next, yields the same final range and offset as one direct computation
that shifts the starting physical index right by the total of all factors
and splits the result into the start aligned to the last factor (low bits
cleared) and the offset (the low bits of the last factor). -/
theorem next_layer_chain_consistency (x c : Nat) (cs : List Nat)
    (hx : x < 2 ^ 64) (hc : c ≤ 64) (hcs : ∀ a ∈ cs, a ≤ 64) :
    chain_next_layer x c cs =
      ({ start := x >>> (c :: cs).sum / 2 ^ ((c :: cs).getLast (List.cons_ne_nil c cs))
            * 2 ^ ((c :: cs).getLast (List.cons_ne_nil c cs)),
         stop := x >>> (c :: cs).sum / 2 ^ ((c :: cs).getLast (List.cons_ne_nil c cs))
            * 2 ^ ((c :: cs).getLast (List.cons_ne_nil c cs))
            + 2 ^ ((c :: cs).getLast (List.cons_ne_nil c cs)) },
       x >>> (c :: cs).sum % 2 ^ ((c :: cs).getLast (List.cons_ne_nil c cs))) := by
  induction cs generalizing x c with
  | nil =>
    simp only [chain_next_layer, List.getLast_singleton, List.sum_cons, List.sum_nil,
      Nat.add_zero]
    exact next_layer_eq x c hx hc
  | cons c2 cs2 ih =>
    have hx2 : x >>> c < 2 ^ 64 := by
      rw [Nat.shiftRight_eq_div_pow]
      exact lt_of_le_of_lt (Nat.div_le_self _ _) hx
    have hstep : chain_next_layer x c (c2 :: cs2) = chain_next_layer (x >>> c) c2 cs2 := by
      simp only [chain_next_layer]
      rw [next_layer_sum x c hx hc]
    rw [hstep, ih (x >>> c) c2 hx2 (hcs c2 (by simp)) (fun a ha => hcs a (by simp [ha]))]
    have hsum : (c :: c2 :: cs2).sum = c + (c2 :: cs2).sum := by simp
    have hlast : (c :: c2 :: cs2).getLast (List.cons_ne_nil c (c2 :: cs2))
        = (c2 :: cs2).getLast (List.cons_ne_nil c2 cs2) :=
      List.getLast_cons (List.cons_ne_nil c2 cs2)
    rw [hsum, hlast, Nat.shiftRight_add]

/-- C6 witness: three rounds from physical index 837 with collapsing
factors 2, 3 and 4. -/
theorem next_layer_chain_consistency_witness :
    837 < 2 ^ 64 ∧ 2 ≤ 64 ∧ (∀ a ∈ [3, 4], a ≤ 64) ∧
    chain_next_layer 837 2 [3, 4] =
      ({ start := 837 >>> ([2, 3, 4].sum) / 2 ^ ([2, 3, 4].getLast (List.cons_ne_nil 2 [3, 4]))
            * 2 ^ ([2, 3, 4].getLast (List.cons_ne_nil 2 [3, 4])),
         stop := 837 >>> ([2, 3, 4].sum) / 2 ^ ([2, 3, 4].getLast (List.cons_ne_nil 2 [3, 4]))
            * 2 ^ ([2, 3, 4].getLast (List.cons_ne_nil 2 [3, 4]))
            + 2 ^ ([2, 3, 4].getLast (List.cons_ne_nil 2 [3, 4])) },
       837 >>> ([2, 3, 4].sum) % 2 ^ ([2, 3, 4].getLast (List.cons_ne_nil 2 [3, 4]))) :=
  ⟨by norm_num, by norm_num, by decide,
    next_layer_chain_consistency 837 2 [3, 4] (by norm_num) (by norm_num) (by decide)⟩

/-- C7: for every starting physical index and collapsing factor the
next-layer operation returns exactly the decomposition the spec words
describe: shift right by the collapsing factor, then split with the
endpoint mask into the aligned new start and the new offset, with range of
length the coset size. -/
theorem next_layer_matches_spec_decomposition (x cf : Nat) :
    get_next_layer_coset_idx_extended x cf = next_layer_spec_decomposition x cf := by
  simp only [get_next_layer_coset_idx_extended, next_layer_spec_decomposition,
    Nat.one_shiftLeft]

/-- C8: for every valid storage index the inverse operation returns the
full-width bit reversal of the index, and its result does not depend on
the collapsing-factor argument. -/
theorem inverse_is_full_width_bitreverse
    (coset_index domain_size log_domain_size cf cf2 : Nat)
    (hd : 2 ^ log_domain_size = domain_size) (hc : coset_index < domain_size) :
    get_natural_idx_for_coset_index coset_index domain_size log_domain_size cf
      = .ok (bitreverse coset_index log_domain_size) ∧
    get_natural_idx_for_coset_index coset_index domain_size log_domain_size cf
      = get_natural_idx_for_coset_index coset_index domain_size log_domain_size cf2 :=
  ⟨inverse_eq coset_index domain_size log_domain_size cf hd hc, rfl⟩

/-- C8 witness: storage index 23 in the domain of size 65536, with the two
collapsing-factor arguments 4 and 7. -/
theorem inverse_is_full_width_bitreverse_witness :
    2 ^ 16 = 65536 ∧ 23 < 65536 ∧
    (get_natural_idx_for_coset_index 23 65536 16 4 = .ok (bitreverse 23 16) ∧
     get_natural_idx_for_coset_index 23 65536 16 4
       = get_natural_idx_for_coset_index 23 65536 16 7) :=
  ⟨by norm_num, by norm_num,
    inverse_is_full_width_bitreverse 23 65536 16 4 7 (by norm_num) (by norm_num)⟩

/-- C9: with collapsing factor 0 the extended forward operation reduces to
plain bit reversal: offset 0 and a range of size one starting at the
full-width bit reversal of the natural index. -/
theorem forward_collapsing_factor_zero
    (natural_index domain_size log_domain_size : Nat)
    (hd : 2 ^ log_domain_size = domain_size) (hlog : log_domain_size ≤ 64)
    (hn : natural_index < domain_size) :
    get_coset_idx_for_natural_index_extended natural_index domain_size log_domain_size 0 =
      .ok ({ start := bitreverse natural_index log_domain_size,
             stop := bitreverse natural_index log_domain_size + 1 }, 0) := by
  have hnl : natural_index < 2 ^ log_domain_size := by rw [hd]; exact hn
  rw [forward_ext_eq natural_index domain_size log_domain_size 0 hd hlog
    (Nat.zero_le _) hn]
  have hdiv : natural_index / 2 ^ (log_domain_size - 0) = 0 := by
    apply Nat.div_eq_of_lt
    simpa using hnl
  simp [Nat.mod_eq_of_lt hnl, hdiv, bitreverse]

/-- C9 witness: natural index 837 in the domain of size 65536 with
collapsing factor 0. -/
theorem forward_collapsing_factor_zero_witness :
    2 ^ 16 = 65536 ∧ 16 ≤ 64 ∧ 837 < 65536 ∧
    get_coset_idx_for_natural_index_extended 837 65536 16 0 =
      .ok ({ start := bitreverse 837 16, stop := bitreverse 837 16 + 1 }, 0) :=
  ⟨by norm_num, by norm_num, by norm_num,
    forward_collapsing_factor_zero 837 65536 16 (by norm_num) (by norm_num) (by norm_num)⟩

/-- C10: for every usize starting index and collapsing factor the range
start and the offset returned by the next-layer operation recombine to the
shifted input: they are a disjoint-bit decomposition of the index shifted
right by the collapsing factor. -/
theorem next_layer_recombination (x cf : Nat) (hx : x < 2 ^ 64) (hcf : cf ≤ 64) :
    (get_next_layer_coset_idx_extended x cf).1.start
      + (get_next_layer_coset_idx_extended x cf).2 = x >>> cf :=
  next_layer_sum x cf hx hcf

/-- C10 witness: starting index 837 with collapsing factor 4. -/
theorem next_layer_recombination_witness :
    837 < 2 ^ 64 ∧ 4 ≤ 64 ∧
    (get_next_layer_coset_idx_extended 837 4).1.start
      + (get_next_layer_coset_idx_extended 837 4).2 = 837 >>> 4 :=
  ⟨by norm_num, by norm_num, next_layer_recombination 837 4 (by norm_num) (by norm_num)⟩
